import Mathlib

/-!
Verification of pogrep (src/pogrep.py) against its specification.

Texts are modelled as `List Char`.  The third-party `regex` module is
modelled by a small regular-expression engine (`RE`, `endsAt`, `sub_all`,
`sub_once`, `parseRE`) covering the constructs the program's call sites
exercise: literal characters, `.`, the word boundary `\b`, alternation `|`
and backslash escapes of non-alphanumeric characters.  Pattern strings
outside this subset fail to parse and are out of the modelled scope.
-/

namespace Pogrep

/-- The four terminal color strings produced by `get_colors` in the source.
Their values depend on the terminal (and are all empty in the degraded
no-color mode), so they are carried as a parameter. -/
structure Colors where
  red : List Char
  green : List Char
  magenta : List Char
  no_color : List Char
deriving DecidableEq, Repr

/-- Characters escaped by `regex.escape` (the special characters of the
Python `regex`/`re` dialect, whitespace included). -/
def specialChars : List Char :=
  ['(', ')', '[', ']', '\x7b', '\x7d', '?', '*', '+', '-', '|', '^', '$',
   '\\', '.', '&', '~', '#', ' ', '\t', '\n', '\r', '\x0b', '\x0c']

/-- Model of `regex.escape`: prepend a backslash to every special character. -/
def regex_escape (s : List Char) : List Char :=
  s.flatMap (fun c => if c ∈ specialChars then ['\\', c] else [c])

/-- Regular-expression abstract syntax, the subset used by pogrep's call
sites: empty expression, a literal character, `.`, the zero-width word
boundary `\b`, concatenation and alternation. -/
inductive RE where
  | eps : RE
  | ch (c : Char) : RE
  | dot : RE
  | bnd : RE
  | seq (a b : RE) : RE
  | alt (a b : RE) : RE
deriving DecidableEq, Repr

/-- Word characters for `\b` (ASCII letters, digits, underscore). -/
def isWordChar (c : Char) : Bool :=
  ('a' ≤ c && c ≤ 'z') || ('A' ≤ c && c ≤ 'Z') || ('0' ≤ c && c ≤ '9') || c = '_'

/-- Whether position `k` of `full` holds a word character (out of range
counts as non-word). -/
def wordAt (full : List Char) (k : Nat) : Bool :=
  match full.get? k with
  | some c => isWordChar c
  | none => false

/-- Whether position `i` of `full` lies at a word boundary: a word
character on exactly one side. -/
def isBoundaryAt (full : List Char) (i : Nat) : Bool :=
  (decide (0 < i) && wordAt full (i - 1)) != wordAt full i

/-- All end positions of matches of `r` starting at position `i` of `full`,
listed in the backtracking priority order of the Python engine (earlier
alternatives first, so the head is the match the engine commits to). -/
def endsAt (r : RE) (full : List Char) (i : Nat) : List Nat :=
  match r with
  | .eps => [i]
  | .ch c => match full.get? i with
    | some d => if d = c then [i + 1] else []
    | none => []
  | .dot => if i < full.length then [i + 1] else []
  | .bnd => if isBoundaryAt full i then [i] else []
  | .seq a b => (endsAt a full i).flatMap (fun m => endsAt b full m)
  | .alt a b => endsAt a full i ++ endsAt b full i

/-- Model of the truthiness of `regex.search(pattern, s)`: some match
starts at some position (positions 0..length inclusive, since `\b` and the
empty pattern can match at the end). -/
def reSearch (r : RE) (s : List Char) : Bool :=
  (List.range (s.length + 1)).any (fun i => !(endsAt r s i).isEmpty)

/-- Scanning loop for the leftmost match: try each start position in
turn; the fuel counts the remaining start positions (the scan covers
positions up to and including the text length). -/
def first_match_aux (r : RE) (full : List Char) : Nat → Nat → Option (Nat × Nat)
  | 0, _ => none
  | fuel + 1, pos =>
    match (endsAt r full pos).head? with
    | some e => some (pos, e)
    | none =>
      if pos < full.length then first_match_aux r full fuel (pos + 1) else none

/-- The leftmost match from position `pos` on: the first start position
with a match, paired with the end position the engine commits to. -/
def firstMatchFrom (r : RE) (full : List Char) (pos : Nat) : Option (Nat × Nat) :=
  first_match_aux r full (full.length + 1 - pos) pos

/-- The span of `full` from `i` (inclusive) to `j` (exclusive). -/
def spanOf (full : List Char) (i j : Nat) : List Char :=
  (full.drop i).take (j - i)

/-- Model of `regex.sub(pattern, repl, s)` (global): scan left to right,
replace each leftmost match by `repl` applied to the matched text; an
empty match emits its replacement and copies one character. -/
def sub_all_aux (r : RE) (repl : List Char → List Char) (full : List Char)
    (pos fuel : Nat) : List Char :=
  match fuel with
  | 0 => full.drop pos
  | fuel' + 1 =>
    if full.length < pos then [] else
    match (endsAt r full pos).head? with
    | some e =>
      if pos < e then
        repl (spanOf full pos e) ++ sub_all_aux r repl full e fuel'
      else
        repl [] ++ match full.get? pos with
          | some c => c :: sub_all_aux r repl full (pos + 1) fuel'
          | none => []
    | none =>
      match full.get? pos with
      | some c => c :: sub_all_aux r repl full (pos + 1) fuel'
      | none => []

/-- Model of `regex.sub(pattern, repl, s)` with no count limit. -/
def sub_all (r : RE) (repl : List Char → List Char) (full : List Char) : List Char :=
  sub_all_aux r repl full 0 (full.length + 1)

/-- Model of `regex.sub(pattern, repl, s, count=1)`: replace only the
leftmost match, copy the rest verbatim. -/
def sub_once (r : RE) (repl : List Char → List Char) (full : List Char) : List Char :=
  match firstMatchFrom r full 0 with
  | some (i, e) => full.take i ++ repl (spanOf full i e) ++ full.drop e
  | none => full

/-- Lexical tokens of the modelled pattern subset. -/
inductive Tok where
  | ch (c : Char) : Tok
  | dot : Tok
  | bnd : Tok
  | bar : Tok
deriving DecidableEq, Repr

/-- Whether a character is an ASCII letter or digit (escapes of these have
special meanings in the dialect and are outside the modelled subset,
except `\b`). -/
def isAsciiAlnum (c : Char) : Bool :=
  ('a' ≤ c && c ≤ 'z') || ('A' ≤ c && c ≤ 'Z') || ('0' ≤ c && c ≤ '9')

/-- Unescaped metacharacters whose constructs the model does not cover. -/
def unsupportedChars : List Char :=
  ['(', ')', '[', ']', '\x7b', '\x7d', '?', '*', '+', '^', '$']

/-- Tokenize a pattern string; `none` when it falls outside the subset
(dangling backslash, escaped alphanumeric other than `\b`, or an
unsupported metacharacter). -/
def lexPat : List Char → Option (List Tok)
  | [] => some []
  | c :: rest =>
    if c = '\\' then
      match rest with
      | [] => none
      | d :: rest2 =>
        if d = 'b' then (lexPat rest2).map (fun ts => .bnd :: ts)
        else if isAsciiAlnum d || d = '_' then none
        else (lexPat rest2).map (fun ts => .ch d :: ts)
    else if c = '.' then (lexPat rest).map (fun ts => .dot :: ts)
    else if c = '|' then (lexPat rest).map (fun ts => .bar :: ts)
    else if c ∈ unsupportedChars then none
    else (lexPat rest).map (fun ts => .ch c :: ts)

/-- The expression denoted by a single non-`bar` token. -/
def atomRE : Tok → RE
  | .ch c => .ch c
  | .dot => .dot
  | .bnd => .bnd
  | .bar => .eps

/-- Concatenation of a run of atoms. -/
def seqOf (ts : List Tok) : RE :=
  ts.foldr (fun t r => .seq (atomRE t) r) .eps

/-- Split a token list at `bar` tokens into the alternation branches. -/
def splitBars : List Tok → List (List Tok)
  | [] => [[]]
  | t :: rest =>
    if t = .bar then [] :: splitBars rest
    else match splitBars rest with
      | [] => [[t]]
      | g :: gs => (t :: g) :: gs

/-- Fold the branches into a left-to-right alternation. -/
def altOf : List (List Tok) → RE
  | [] => .eps
  | [g] => seqOf g
  | g :: gs => .alt (seqOf g) (altOf gs)

/-- Parse a pattern string of the modelled subset into an `RE`. -/
def parseRE (s : List Char) : Option RE :=
  (lexPat s).map (fun ts => altOf (splitBars ts))

/-- Substring test, modelling Python's `in` operator on strings. -/
def isSubstr (needle hay : List Char) : Bool :=
  (List.range (hay.length + 1)).any (fun i => needle.isPrefixOf (hay.drop i))

/-- One iteration of the prefix loop of `colorize` (`for pnum, pfile in
prefixes`), acting on the current `result`.  The prefix string is rebuilt,
pattern-colored and escaped; if the escaped red code occurs in that
escaped form, the escaped form is used as the search pattern, otherwise
the raw prefix string is — in either case the string is then interpreted
as a regular expression by `regex.sub(..., count=1)`, so it is parsed
here; a prefix outside the parsed subset is beyond the modelled scope and
leaves the text unchanged.  The replacement template contains no
backslash processing for the inputs considered (no backslashes in
`pfile`/`pnum`), so it is modelled as a constant replacement. -/
def colorize_step (r : RE) (C : Colors) (result : List Char)
    (p : List Char × List Char) : List Char :=
  let pnum := p.1
  let pfile := p.2
  let pfx := ' ' :: (pfile ++ pnum)
  let pfx_colored :=
    regex_escape (sub_all r (fun m => C.red ++ m ++ C.no_color) pfx)
  let pat := if isSubstr (regex_escape C.red) pfx_colored then pfx_colored else pfx
  match parseRE pat with
  | some pr =>
    sub_once pr
      (fun _ => ' ' :: (C.magenta ++ pfile ++ C.green ++ pnum ++ C.no_color))
      result
  | none => result

/-- Model of `colorize(text, pattern, prefixes)`: wrap every pattern match
in red, then run the prefix pass once per `(pnum, pfile)` pair. -/
def colorize (r : RE) (C : Colors) (text : List Char)
    (pfxs : List (List Char × List Char)) : List Char :=
  pfxs.foldl (colorize_step r C) (sub_all r (fun m => C.red ++ m ++ C.no_color) text)

/-- Remove every character belonging to the designated class `cc` of
color-code characters: the stripping of injected color escape codes, for
color strings drawn from a character class disjoint from the text. -/
def stripColors (cc : List Char) (s : List Char) : List Char :=
  s.filter (fun c => !cc.contains c)

/-- The literal regular expression matching exactly the string `w`. -/
def litRE (w : List Char) : RE :=
  seqOf (w.map Tok.ch)

/-- A character that the lexer turns into a plain literal token. -/
def plainChar (c : Char) : Prop :=
  ¬c = '\\' ∧ ¬c = '.' ∧ ¬c = '|' ∧ c ∉ unsupportedChars

instance (c : Char) : Decidable (plainChar c) := by
  unfold plainChar
  infer_instance

/-- One entry of a parsed catalog file, as delivered by `polib` (which is
treated as a black box): original text, translated text, line number. -/
structure POEntry where
  msgid : List Char
  msgstr : List Char
  linenum : Nat
deriving DecidableEq, Repr

/-- The `Match` named tuple of the source. -/
structure Match where
  file : List Char
  line : Nat
  msgid : List Char
  msgstr : List Char
deriving DecidableEq, Repr

/-- The error raised by the regex engine when the pattern is malformed. -/
inductive SearchErr where
  | invalid : SearchErr
deriving DecidableEq, Repr

/-- The match condition of `find_in_po` for one entry, with Python's
short-circuit order: `entry.msgstr and ((not not_in_source and
search(msgid)) or (in_translation and search(msgstr)))`.  `search` models
`regex.search(pattern, ·)` being truthy and may raise (lazily compiled
malformed patterns raise at the first search). -/
def entry_cond (search : List Char → Except SearchErr Bool)
    (not_in_source in_translation : Bool) (e : POEntry) : Except SearchErr Bool :=
  if e.msgstr = [] then pure false
  else do
    let a ← if not_in_source then pure false else search e.msgid
    if a then pure true
    else if in_translation then search e.msgstr
    else pure false

/-- The inner loop of `find_in_po` over one parsed file's entries. -/
def scan_entries (search : List Char → Except SearchErr Bool)
    (not_in_source in_translation : Bool) (fname : List Char) :
    List POEntry → Except SearchErr (List Match)
  | [] => pure []
  | e :: es => do
    let c ← entry_cond search not_in_source in_translation e
    let rest ← scan_entries search not_in_source in_translation fname es
    pure (if c then ⟨fname, e.linenum, e.msgid, e.msgstr⟩ :: rest else rest)

/-- The warning string recorded for a file `polib` cannot parse. -/
def not_po_msg (fname : List Char) : List Char :=
  fname ++ (" doesn\x27t seem to be a .po file").toList

/-- Model of `find_in_po(pattern, path, not_in_source, in_translation)`.
A file is a name paired with its parse outcome (`none` when `polib.pofile`
raises `OSError`, which the source catches and records as a warning).
Returns the `(errors, results)` pair; a regex error escapes (only
`OSError` is caught in the source). -/
def find_in_po (search : List Char → Except SearchErr Bool)
    (not_in_source in_translation : Bool) :
    List (List Char × Option (List POEntry)) →
    Except SearchErr (List (List Char) × List Match)
  | [] => pure ([], [])
  | (fname, parsed) :: fs =>
    match parsed with
    | none => do
      let (errs, res) ← find_in_po search not_in_source in_translation fs
      pure (not_po_msg fname :: errs, res)
    | some entries => do
      let ms ← scan_entries search not_in_source in_translation fname entries
      let (errs, res) ← find_in_po search not_in_source in_translation fs
      pure (errs, ms ++ res)

/-- A total search function (well-formed pattern) lifted into the
exception monad. -/
def okSearch (p : List Char → Bool) : List Char → Except SearchErr Bool :=
  fun s => pure (p s)

/-- The search function of a malformed pattern: every search raises. -/
def badSearch : List Char → Except SearchErr Bool :=
  fun _ => .error .invalid

/-- First-seen deduplication, an instance of the unspecified iteration
order of the Python set `{match.file for match in matches}` (the source
gives no ordering guarantee; only the underlying set is specified). -/
def dedup_first (seen : List (List Char)) : List (List Char) → List (List Char)
  | [] => []
  | x :: xs =>
    if x ∈ seen then dedup_first seen xs else x :: dedup_first (x :: seen) xs

/-- Decimal digits of a natural number, modelling Python's `str(line)`. -/
def natToChars (n : Nat) : List Char :=
  Nat.toDigits 10 n

/-- Model of `display_results(matches, pattern, line_number,
files_with_matches)`: the list of texts printed to standard output.  The
third-party renderers are parameters: `tabulate` (the fancy-grid table of
the `tabulate` package) and `fillF` (`textwrap.fill` at a given width);
`termW` is the terminal width.  In the files-with-matches branch each
file name is printed on its own line; otherwise the whole colorized table
is one printed text. -/
def display_results (ms : List Match) (r : RE)
    (line_number files_with_matches : Bool) (C : Colors) (termW : Int)
    (tabulate : List (List (List Char)) → List Char)
    (fillF : List Char → Int → List Char) : List (List Char) :=
  let files := dedup_first [] (ms.map Match.file)
  if files_with_matches then
    files.map (fun f => C.magenta ++ f ++ C.no_color)
  else
    let width : Int := Int.fdiv (termW - 7) 2
    let pnumOf := fun (m : Match) => natToChars m.line ++ [':']
    let pfileOf := fun (m : Match) =>
      if 1 < files.length then m.file ++ [':'] else []
    let leftOf := fun (m : Match) =>
      if line_number then pfileOf m ++ pnumOf m ++ m.msgid else m.msgid
    let pfxs :=
      if line_number then ms.map (fun m => (pnumOf m, pfileOf m)) else []
    let table := ms.map (fun m => [fillF (leftOf m) width, fillF m.msgstr width])
    [colorize r C (tabulate table) pfxs]

/-- Outcome of `process_path`: either `sys.exit` with a code and the texts
printed to standard error, or the resolved file list. -/
inductive PPOut where
  | exited (code : Nat) (stderr_lines : List (List Char)) : PPOut
  | ok (files : List (List Char)) : PPOut
deriving DecidableEq, Repr

/-- What a path names on the filesystem. -/
inductive PathKind where
  | file : PathKind
  | dir : PathKind
  | missing : PathKind
deriving DecidableEq, Repr

/-- The error line for a directory given without `-r`. -/
def is_dir_msg (argv0 elt : List Char) : List Char :=
  argv0 ++ (": ").toList ++ elt ++ (": Is a directory").toList

/-- The error line for a nonexistent path. -/
def no_such_msg (argv0 elt : List Char) : List Char :=
  argv0 ++ (": ").toList ++ elt ++ (": No such file or directory").toList

/-- The per-element loop of `process_path`, with `acc` the `files`
accumulator. -/
def process_path_loop (kind : List Char → PathKind)
    (globDir : List Char → List (List Char)) (argv0 : List Char)
    (recursive : Bool) (acc : List (List Char)) :
    List (List Char) → PPOut
  | [] => .ok acc
  | elt :: rest =>
    match kind elt with
    | .file => process_path_loop kind globDir argv0 recursive (acc ++ [elt]) rest
    | .dir =>
      if recursive then
        process_path_loop kind globDir argv0 recursive (acc ++ globDir elt) rest
      else .exited 1 [is_dir_msg argv0 elt]
    | .missing => .exited 1 [no_such_msg argv0 elt]

/-- Model of `process_path(path, recursive)`.  The filesystem is a
parameter: `kind` classifies a path, `globAll` is the result of
`glob.glob("**/*.po", recursive=True)` and `globDir` the per-directory
recursive glob. -/
def process_path (kind : List Char → PathKind) (globAll : List (List Char))
    (globDir : List Char → List (List Char)) (argv0 : List Char)
    (recursive : Bool) (path : List (List Char)) : PPOut :=
  if path.length = 0 then
    if !recursive then .exited 0 [] else .ok globAll
  else process_path_loop kind globDir argv0 recursive [] path

/-- The literal-escaping step of `main` (`args.fixed_strings`). -/
def escape_step (fixed_strings : Bool) (p : List Char) : List Char :=
  if fixed_strings then regex_escape p else p

/-- The word-boundary wrapping step of `main` (`args.word_regexp`). -/
def word_step (word_regexp : Bool) (p : List Char) : List Char :=
  if word_regexp then ['\\', 'b'] ++ p ++ ['\\', 'b'] else p

/-- The case-insensitivity step of `main` (`args.ignore_case`). -/
def icase_step (ignore_case : Bool) (p : List Char) : List Char :=
  if ignore_case then ['(', '?', 'i', ')'] ++ p else p

/-- The successive reassignments of `args.pattern` in `main`, lines
243-248 of the source, in source order. -/
def build_pattern (fixed_strings word_regexp ignore_case : Bool)
    (p : List Char) : List Char :=
  let p1 := if fixed_strings then regex_escape p else p
  let p2 := if word_regexp then ['\\', 'b'] ++ p1 ++ ['\\', 'b'] else p1
  if ignore_case then ['(', '?', 'i', ')'] ++ p2 else p2

/-- The output of the tail of `main` for a pattern that is well-formed by
the time it reaches the display stage: `find_in_po`, then the collected
warnings printed to standard error unless `-s`, then `display_results`
(with the compiled pattern `r`) to standard output.  Each printed text is
tagged with `true` for standard error, in print order; a regex error from
the search side escapes uncaught.  The display-stage compilation of a
malformed pattern (raised by `regex.sub` in `colorize`, line 49, reached
from line 128) is modelled by `main_run` below. -/
def main_events (search : List Char → Except SearchErr Bool)
    (not_in_source in_translation no_messages line_number
      files_with_matches : Bool)
    (files : List (List Char × Option (List POEntry))) (r : RE) (C : Colors)
    (termW : Int) (tabulate : List (List (List Char)) → List Char)
    (fillF : List Char → Int → List Char) :
    Except SearchErr (List (Bool × List Char)) := do
  let (errs, res) ← find_in_po search not_in_source in_translation files
  pure ((if no_messages then [] else errs).map (fun l => (true, l)) ++
    (display_results res r line_number files_with_matches C termW
      tabulate fillF).map (fun l => (false, l)))

/-- The search function induced by a compiled pattern: the `regex` module
compiles the pattern string lazily at each call site, so every search
raises when the pattern is malformed (`.error .invalid`). -/
def searchOf (pat : Except SearchErr RE) : List Char → Except SearchErr Bool :=
  fun s => do
    let r ← pat
    pure (reSearch r s)

/-- The tail of `main` with the lazily compiled pattern threaded into
every call site that compiles it: the searches of `find_in_po`, and — when
the files-with-matches flag is off — the `regex.sub` of `colorize` (line
49, reached from `display_results` line 128), which compiles the pattern
for the results table and raises there if it is malformed.  The
files-with-matches branch (line 105-108) prints the file names and
returns before any substitution, so it never compiles the pattern;
`display_results` ignores its pattern argument in that branch and it is
instantiated with an arbitrary fixed expression.  On the error paths the
exception is the program outcome (text already printed before the crash
is not tracked). -/
def main_run (pat : Except SearchErr RE)
    (not_in_source in_translation no_messages line_number
      files_with_matches : Bool)
    (files : List (List Char × Option (List POEntry))) (C : Colors)
    (termW : Int) (tabulate : List (List (List Char)) → List Char)
    (fillF : List Char → Int → List Char) :
    Except SearchErr (List (Bool × List Char)) := do
  let (errs, res) ← find_in_po (searchOf pat) not_in_source in_translation files
  let stderrLines := (if no_messages then [] else errs).map (fun l => (true, l))
  if files_with_matches then
    pure (stderrLines ++
      (display_results res .eps line_number true C termW
        tabulate fillF).map (fun l => (false, l)))
  else do
    let r ← pat
    pure (stderrLines ++
      (display_results res r line_number false C termW
        tabulate fillF).map (fun l => (false, l)))

/-- The `Match` built from an entry of a file. -/
def toMatch (fname : List Char) (e : POEntry) : Match :=
  ⟨fname, e.linenum, e.msgid, e.msgstr⟩

/-- The Boolean value of the `find_in_po` condition for one entry, for a
total search predicate `p`. -/
def match_pred (p : List Char → Bool) (not_in_source in_translation : Bool)
    (e : POEntry) : Bool :=
  !e.msgstr.isEmpty && ((!not_in_source && p e.msgid) ||
    (in_translation && p e.msgstr))

/-- The warnings `find_in_po` collects: one per unparseable file. -/
def po_errors (files : List (List Char × Option (List POEntry))) :
    List (List Char) :=
  files.filterMap (fun f => match f.2 with
    | none => some (not_po_msg f.1)
    | some _ => none)

/-- The matches of one file (none when the file is unparseable). -/
def file_results (p : List Char → Bool) (not_in_source in_translation : Bool)
    (f : List Char × Option (List POEntry)) : List Match :=
  match f.2 with
  | none => []
  | some es => (es.filter (match_pred p not_in_source in_translation)).map (toMatch f.1)

/-- Whether a file of the list makes `find_in_po` call the search
function at least once: it parses and has an entry with non-empty
translation, while at least one search side is enabled. -/
def triggersSearch (nis it : Bool)
    (f : List Char × Option (List POEntry)) : Bool :=
  match f.2 with
  | none => false
  | some es => es.any (fun e => !e.msgstr.isEmpty && (!nis || it))

/-- The span `[i, e)` lies strictly inside a larger alphanumeric run:
the character before the span start and the one at the start are both
word characters, or the character before the span end and the one at the
end are. -/
def strictlyInsideRun (full : List Char) (i e : Nat) : Bool :=
  (decide (0 < i) && wordAt full (i - 1) && wordAt full i) ||
    (decide (0 < e) && wordAt full (e - 1) && wordAt full e)

lemma entry_cond_ok (p : List Char → Bool) (nis it : Bool) (e : POEntry) :
    entry_cond (okSearch p) nis it e = pure (match_pred p nis it e) := by
  unfold entry_cond match_pred okSearch
  by_cases h : e.msgstr = []
  · simp [h]
  · simp only [if_neg h, List.isEmpty_eq_true, h]
    cases nis <;> cases it <;> cases hm : p e.msgid <;> cases hs : p e.msgstr <;>
      simp [hm, hs, h, pure, Except.pure, Bind.bind, Except.bind]

lemma scan_entries_ok (p : List Char → Bool) (nis it : Bool)
    (fname : List Char) (es : List POEntry) :
    scan_entries (okSearch p) nis it fname es =
      pure ((es.filter (match_pred p nis it)).map (toMatch fname)) := by
  induction es with
  | nil => rfl
  | cons e es ih =>
    simp only [scan_entries, entry_cond_ok, ih, List.filter_cons]
    cases h : match_pred p nis it e <;>
      simp [h, toMatch, pure, Except.pure, Bind.bind, Except.bind]

lemma find_in_po_ok (p : List Char → Bool) (nis it : Bool)
    (files : List (List Char × Option (List POEntry))) :
    find_in_po (okSearch p) nis it files =
      pure (po_errors files, files.flatMap (file_results p nis it)) := by
  induction files with
  | nil => rfl
  | cons f fs ih =>
    obtain ⟨fname, parsed⟩ := f
    cases parsed with
    | none =>
      simp [find_in_po, ih, po_errors, file_results,
        pure, Except.pure, Bind.bind, Except.bind]
    | some es =>
      simp [find_in_po, ih, scan_entries_ok, po_errors, file_results,
        pure, Except.pure, Bind.bind, Except.bind]

/-- C1: with a well-formed pattern, `find_in_po` succeeds, and a record
yields a `Match` exactly when its translated text is non-empty and
((`searchOriginal` — the negation of the no-source flag — holds and the
pattern matches the original) or (`searchTranslation` holds and the
pattern matches the translation)); a record with empty translation never
matches, and with both toggles off the match list is empty. -/
theorem C1_match_predicate (p : List Char → Bool) (nis it : Bool)
    (files : List (List Char × Option (List POEntry))) :
    find_in_po (okSearch p) nis it files =
        pure (po_errors files, files.flatMap (file_results p nis it)) ∧
      (∀ m, m ∈ files.flatMap (file_results p nis it) ↔
        ∃ fname es e, (fname, some es) ∈ files ∧ e ∈ es ∧ m = toMatch fname e ∧
          e.msgstr ≠ [] ∧
          ((!nis && p e.msgid) || (it && p e.msgstr)) = true) ∧
      (∀ m ∈ files.flatMap (file_results p nis it), m.msgstr ≠ []) ∧
      (nis = true → it = false → files.flatMap (file_results p nis it) = []) := by
  refine ⟨find_in_po_ok p nis it files, ?_, ?_, ?_⟩
  · intro m
    simp only [List.mem_flatMap]
    constructor
    · rintro ⟨f, hf, hm⟩
      obtain ⟨fname, parsed⟩ := f
      cases parsed with
      | none => simp [file_results] at hm
      | some es =>
        simp only [file_results, List.mem_map, List.mem_filter] at hm
        obtain ⟨e, ⟨he, hpred⟩, rfl⟩ := hm
        refine ⟨fname, es, e, hf, he, rfl, ?_, ?_⟩
        · simp only [match_pred, Bool.and_eq_true, List.isEmpty_eq_true,
            Bool.not_eq_true'] at hpred
          intro hnil
          rcases hpred with ⟨h1, _⟩
          rw [hnil] at h1
          simp at h1
        · simp only [match_pred, Bool.and_eq_true] at hpred
          exact hpred.2
    · rintro ⟨fname, es, e, hf, he, rfl, hne, hcond⟩
      refine ⟨(fname, some es), hf, ?_⟩
      simp only [file_results, List.mem_map, List.mem_filter]
      refine ⟨e, ⟨he, ?_⟩, rfl⟩
      simp only [match_pred, Bool.and_eq_true, List.isEmpty_eq_true,
        Bool.not_eq_true']
      exact ⟨by simpa using hne, hcond⟩
  · intro m hm
    simp only [List.mem_flatMap] at hm
    obtain ⟨f, _, hm⟩ := hm
    obtain ⟨fname, parsed⟩ := f
    cases parsed with
    | none => simp [file_results] at hm
    | some es =>
      simp only [file_results, List.mem_map, List.mem_filter] at hm
      obtain ⟨e, ⟨_, hpred⟩, rfl⟩ := hm
      simp only [match_pred, Bool.and_eq_true, List.isEmpty_eq_true,
        Bool.not_eq_true'] at hpred
      intro hnil
      have := hpred.1
      simp [toMatch] at hnil
      rw [hnil] at this
      simp at this
  · intro hnis hit
    rw [List.flatMap_eq_nil_iff]
    intro f _
    obtain ⟨fname, parsed⟩ := f
    cases parsed with
    | none => rfl
    | some es =>
      simp only [file_results, List.map_eq_nil_iff, List.filter_eq_nil_iff]
      intro e _
      simp [match_pred, hnis, hit]

/-- Witness for C1 at a concrete file: with both search sides disabled
the match list is empty. -/
theorem C1_match_predicate_witness :
    [(['a'], some [⟨['h'], ['w'], 3⟩])].flatMap
      (file_results (fun _ => true) true false) = [] :=
  (C1_match_predicate (fun _ => true) true false
    [(['a'], some [⟨['h'], ['w'], 3⟩])]).2.2.2 rfl rfl

/-- C5: with a well-formed pattern, the match list of `find_in_po` is the
per-file match lists concatenated in input-file order, each file's
matches in its entry order, with no re-sorting and no deduplication (the
equality to the filter-map form preserves duplicates). -/
theorem C5_order_preserved (p : List Char → Bool) (nis it : Bool)
    (files : List (List Char × Option (List POEntry))) :
    find_in_po (okSearch p) nis it files =
      pure (po_errors files,
        files.flatMap (fun f => match f.2 with
          | none => []
          | some es =>
            (es.filter (match_pred p nis it)).map (toMatch f.1))) :=
  find_in_po_ok p nis it files

/-- C2: the pattern of `main` is built by literal-escaping first (when
`-F`), then word-boundary wrapping (when `-w`), then prepending the
case-insensitivity modifier (when `-i`), in exactly that order of
composition. -/
theorem C2_pattern_build_order (fixed_strings word_regexp ignore_case : Bool)
    (p : List Char) :
    build_pattern fixed_strings word_regexp ignore_case p =
      icase_step ignore_case (word_step word_regexp
        (escape_step fixed_strings p)) := by
  rfl

lemma process_path_loop_files (kind : List Char → PathKind)
    (globDir : List Char → List (List Char)) (argv0 : List Char)
    (recursive : Bool) (pre : List (List Char))
    (h : ∀ e ∈ pre, kind e = .file) (acc rest : List (List Char)) :
    process_path_loop kind globDir argv0 recursive acc (pre ++ rest) =
      process_path_loop kind globDir argv0 recursive (acc ++ pre) rest := by
  induction pre generalizing acc with
  | nil => simp
  | cons e pre ih =>
    have he : kind e = .file := h e (List.mem_cons_self e pre)
    simp only [List.cons_append, process_path_loop, he, List.append_eq]
    rw [ih (fun x hx => h x (List.mem_cons_of_mem e hx))]
    simp

/-- C7: with no path arguments and no `-r`, `process_path` exits with
status 0 printing nothing; a listed directory without `-r`, or a listed
path that does not exist (each preceded only by plain files), makes it
exit with status 1 after printing an error naming that path to standard
error, before any file list is returned for scanning. -/
theorem C7_path_resolution (kind : List Char → PathKind)
    (globAll : List (List Char)) (globDir : List Char → List (List Char))
    (argv0 : List Char) :
    process_path kind globAll globDir argv0 false [] = .exited 0 [] ∧
      (∀ pre elt post, (∀ e ∈ pre, kind e = .file) → kind elt = .dir →
        process_path kind globAll globDir argv0 false (pre ++ elt :: post) =
          .exited 1 [is_dir_msg argv0 elt]) ∧
      (∀ recursive pre elt post,
        (∀ e ∈ pre, kind e = .file) → kind elt = .missing →
        process_path kind globAll globDir argv0 recursive (pre ++ elt :: post) =
          .exited 1 [no_such_msg argv0 elt]) := by
  refine ⟨rfl, ?_, ?_⟩
  · intro pre elt post hpre helt
    have hne : (pre ++ elt :: post).length ≠ 0 := by simp
    simp only [process_path, if_neg hne]
    rw [process_path_loop_files kind globDir argv0 false pre hpre]
    simp [process_path_loop, helt]
  · intro recursive pre elt post hpre helt
    have hne : (pre ++ elt :: post).length ≠ 0 := by simp
    simp only [process_path, if_neg hne]
    rw [process_path_loop_files kind globDir argv0 recursive pre hpre]
    simp [process_path_loop, helt]

/-- Witness for C7 on a concrete three-path filesystem. -/
theorem C7_path_resolution_witness :
    process_path
        (fun s => if s = ['d'] then PathKind.dir
          else if s = ['m'] then PathKind.missing else PathKind.file)
        [] (fun _ => []) ['p'] false [] = .exited 0 [] ∧
      process_path
        (fun s => if s = ['d'] then PathKind.dir
          else if s = ['m'] then PathKind.missing else PathKind.file)
        [] (fun _ => []) ['p'] false [['f'], ['d']] =
          .exited 1 [is_dir_msg ['p'] ['d']] ∧
      process_path
        (fun s => if s = ['d'] then PathKind.dir
          else if s = ['m'] then PathKind.missing else PathKind.file)
        [] (fun _ => []) ['p'] true [['f'], ['m']] =
          .exited 1 [no_such_msg ['p'] ['m']] := by
  have h := C7_path_resolution
    (fun s => if s = ['d'] then PathKind.dir
      else if s = ['m'] then PathKind.missing else PathKind.file)
    [] (fun _ => []) ['p']
  exact ⟨h.1, h.2.1 [['f']] ['d'] [] (by decide) (by decide),
    h.2.2 true [['f']] ['m'] [] (by decide) (by decide)⟩

/-- C8: an unparseable file is non-fatal: wherever it sits in the file
list it contributes exactly one warning string and zero matches, the
remaining files are scanned as usual, and `main` emits the collected
warnings to standard error — all of them before any result output, and
none at all when `-s` is set. -/
theorem C8_unparseable_nonfatal (p : List Char → Bool)
    (nis it nm ln fwm : Bool)
    (pre post : List (List Char × Option (List POEntry))) (bad : List Char)
    (r : RE) (C : Colors) (termW : Int)
    (tabulate : List (List (List Char)) → List Char)
    (fillF : List Char → Int → List Char) :
    find_in_po (okSearch p) nis it (pre ++ (bad, none) :: post) =
        pure (po_errors pre ++ not_po_msg bad :: po_errors post,
          pre.flatMap (file_results p nis it) ++
            post.flatMap (file_results p nis it)) ∧
      main_events (okSearch p) nis it nm ln fwm (pre ++ (bad, none) :: post)
          r C termW tabulate fillF =
        .ok ((if nm then [] else
            po_errors pre ++ not_po_msg bad :: po_errors post).map
              (fun l => (true, l)) ++
          (display_results
            (pre.flatMap (file_results p nis it) ++
              post.flatMap (file_results p nis it))
            r ln fwm C termW tabulate fillF).map (fun l => (false, l))) := by
  have herr : po_errors (pre ++ (bad, none) :: post) =
      po_errors pre ++ not_po_msg bad :: po_errors post := by
    simp [po_errors]
  have hres : (pre ++ (bad, none) :: post).flatMap (file_results p nis it) =
      pre.flatMap (file_results p nis it) ++
        post.flatMap (file_results p nis it) := by
    simp [file_results]
  have hfind := find_in_po_ok p nis it (pre ++ (bad, none) :: post)
  rw [herr, hres] at hfind
  refine ⟨hfind, ?_⟩
  simp [main_events, hfind, pure, Except.pure, Bind.bind, Except.bind]

lemma entry_cond_bad (nis it : Bool) (e : POEntry) :
    entry_cond badSearch nis it e =
      if !e.msgstr.isEmpty && (!nis || it) then .error .invalid
      else pure false := by
  unfold entry_cond badSearch
  by_cases h : e.msgstr = []
  · simp [h]
  · have h' : e.msgstr.isEmpty = false := by
      cases hm : e.msgstr with
      | nil => exact absurd hm h
      | cons a l => rfl
    cases nis <;> cases it <;>
      simp [h, h', pure, Except.pure, Bind.bind, Except.bind]

lemma scan_entries_bad (nis it : Bool) (fname : List Char)
    (es : List POEntry) :
    scan_entries badSearch nis it fname es =
      if es.any (fun e => !e.msgstr.isEmpty && (!nis || it))
      then .error .invalid else pure [] := by
  induction es with
  | nil => rfl
  | cons e es ih =>
    simp only [scan_entries, entry_cond_bad, List.any_cons]
    by_cases h : (!e.msgstr.isEmpty && (!nis || it)) = true
    · simp [h, Bind.bind, Except.bind]
    · simp only [Bool.not_eq_true] at h
      simp only [h, if_false, Bool.false_or]
      rw [ih]
      by_cases h2 : es.any (fun e => !e.msgstr.isEmpty && (!nis || it)) = true
      · simp [h2, pure, Except.pure, Bind.bind, Except.bind]
      · simp only [Bool.not_eq_true] at h2
        simp [h2, pure, Except.pure, Bind.bind, Except.bind]

lemma find_in_po_bad (nis it : Bool)
    (files : List (List Char × Option (List POEntry))) :
    find_in_po badSearch nis it files =
      if files.any (triggersSearch nis it) then .error .invalid
      else pure (po_errors files, []) := by
  induction files with
  | nil => rfl
  | cons f fs ih =>
    obtain ⟨fname, parsed⟩ := f
    cases parsed with
    | none =>
      simp only [find_in_po, ih, List.any_cons, triggersSearch, Bool.false_or]
      by_cases h : fs.any (triggersSearch nis it) = true
      · simp [h, Bind.bind, Except.bind]
      · simp only [Bool.not_eq_true] at h
        simp [h, po_errors, pure, Except.pure, Bind.bind, Except.bind]
    | some es =>
      simp only [find_in_po, scan_entries_bad, List.any_cons, triggersSearch]
      by_cases h : es.any (fun e => !e.msgstr.isEmpty && (!nis || it)) = true
      · simp [h, Bind.bind, Except.bind]
      · simp only [Bool.not_eq_true] at h
        simp only [h, if_false, Bool.false_or, ih]
        by_cases h2 : fs.any (triggersSearch nis it) = true
        · simp [h2, pure, Except.pure, Bind.bind, Except.bind]
        · simp only [Bool.not_eq_true] at h2
          simp [h2, po_errors, pure, Except.pure, Bind.bind, Except.bind]

lemma searchOf_err :
    searchOf (Except.error SearchErr.invalid) = badSearch := by
  funext s
  rfl

lemma triggers_iff (nis it : Bool)
    (files : List (List Char × Option (List POEntry))) :
    files.any (triggersSearch nis it) = true ↔
      ∃ fname es, (fname, some es) ∈ files ∧
        ∃ e ∈ es, e.msgstr ≠ [] ∧ (nis = false ∨ it = true) := by
  have isEmpty_false_iff : ∀ l : List Char, l.isEmpty = false ↔ l ≠ [] := by
    intro l
    cases l <;> simp
  rw [List.any_eq_true]
  constructor
  · rintro ⟨f, hf, ht⟩
    obtain ⟨fname, parsed⟩ := f
    cases parsed with
    | none => simp [triggersSearch] at ht
    | some es =>
      simp only [triggersSearch, List.any_eq_true] at ht
      obtain ⟨e, he, hc⟩ := ht
      simp only [Bool.and_eq_true, Bool.or_eq_true, Bool.not_eq_true',
        isEmpty_false_iff] at hc
      refine ⟨fname, es, hf, e, he, hc.1, ?_⟩
      rcases hc.2 with h | h
      · exact Or.inl h
      · exact Or.inr h
  · rintro ⟨fname, es, hf, e, he, hne, hside⟩
    refine ⟨(fname, some es), hf, ?_⟩
    simp only [triggersSearch, List.any_eq_true]
    refine ⟨e, he, ?_⟩
    simp only [Bool.and_eq_true, Bool.or_eq_true, Bool.not_eq_true',
      isEmpty_false_iff]
    exact ⟨hne, hside⟩

/-- C9 (amended): a malformed pattern makes the program fail with an
uncaught invalid-pattern error whenever the pattern is compiled: without
the files-with-matches flag it always fails — at the first attempted
search when one occurs, and otherwise at the display stage, where
the substitution of `colorize` compiles the pattern for the results table;
with the files-with-matches flag it fails exactly when a search is
attempted (some parsed file has an entry with non-empty translation
while a search side is enabled), since that branch prints file names
and returns before any substitution.  No repair is attempted and no
match is ever produced from a malformed pattern. -/
theorem C9_invalid_pattern_propagates (nis it nm ln : Bool)
    (files : List (List Char × Option (List POEntry))) (C : Colors)
    (termW : Int) (tabulate : List (List (List Char)) → List Char)
    (fillF : List Char → Int → List Char) :
    main_run (.error .invalid) nis it nm ln false files C termW
        tabulate fillF = .error .invalid ∧
      (main_run (.error .invalid) nis it nm ln true files C termW
          tabulate fillF = .error .invalid ↔
        ∃ fname es, (fname, some es) ∈ files ∧
          ∃ e ∈ es, e.msgstr ≠ [] ∧ (nis = false ∨ it = true)) ∧
      (∀ errs res,
        find_in_po (searchOf (.error .invalid)) nis it files =
          pure (errs, res) → res = []) := by
  have hbad : find_in_po (searchOf (.error .invalid)) nis it files =
      if files.any (triggersSearch nis it) then .error .invalid
      else pure (po_errors files, []) := by
    rw [searchOf_err]
    exact find_in_po_bad nis it files
  refine ⟨?_, ?_, ?_⟩
  · rw [main_run, hbad]
    by_cases h : files.any (triggersSearch nis it) = true
    · rw [if_pos h]
      rfl
    · rw [if_neg h]
      rfl
  · rw [main_run, hbad]
    by_cases h : files.any (triggersSearch nis it) = true
    · rw [if_pos h]
      constructor
      · intro _
        exact (triggers_iff nis it files).mp h
      · intro _
        rfl
    · rw [if_neg h]
      constructor
      · intro hc
        exact absurd hc (by simp [pure, Except.pure, Bind.bind, Except.bind])
      · intro hex
        exact absurd ((triggers_iff nis it files).mpr hex) h
  · intro errs res hok
    rw [hbad] at hok
    by_cases h : files.any (triggersSearch nis it) = true
    · rw [if_pos h] at hok
      simp [pure, Except.pure] at hok
    · rw [if_neg h] at hok
      simp only [pure, Except.pure, Except.ok.injEq, Prod.mk.injEq] at hok
      exact hok.2.symm

/-- Witness for C9 (amended): one parsed entry with a non-empty
translation and the original-text side enabled makes the malformed
pattern raise at the first search even under the files-with-matches
flag. -/
theorem C9_invalid_pattern_witness :
    main_run (.error .invalid) false false false false true
      [(['a'], some [⟨['h'], ['b'], 1⟩])] ⟨[], [], [], []⟩ 80
      (fun _ => []) (fun s _ => s) = .error .invalid := by
  have h := C9_invalid_pattern_propagates false false false false
    [(['a'], some [⟨['h'], ['b'], 1⟩])] ⟨[], [], [], []⟩ 80
    (fun _ => []) (fun s _ => s)
  exact h.2.1.mpr
    ⟨['a'], [⟨['h'], ['b'], 1⟩], by simp,
      ⟨['h'], ['b'], 1⟩, by simp, by decide, Or.inl rfl⟩

/-- Counterexample to C9 as stated: with a malformed pattern, both search
sides disabled (`--no-source` without `--translation`) and the
files-with-matches flag set (`-l`), a file with a non-empty translated
entry is scanned without any search being attempted, and the
files-with-matches branch returns before `colorize` would compile the
pattern — so the program does not fail: it completes normally, printing
nothing. -/
theorem C9_counterexample_no_failure :
    main_run (.error .invalid) true false false false true
      [(['a'], some [⟨['h'], ['b'], 3⟩])] ⟨[], [], [], []⟩ 80
      (fun _ => []) (fun s _ => s) = .ok [] := by
  rfl

lemma dedup_first_mem (a : List Char) (l seen : List (List Char)) :
    a ∈ dedup_first seen l ↔ a ∈ l ∧ a ∉ seen := by
  induction l generalizing seen with
  | nil => simp [dedup_first]
  | cons x xs ih =>
    by_cases hx : x ∈ seen
    · rw [dedup_first, if_pos hx, ih]
      constructor
      · rintro ⟨h1, h2⟩
        exact ⟨List.mem_cons_of_mem x h1, h2⟩
      · rintro ⟨h1, h2⟩
        rcases List.mem_cons.mp h1 with rfl | h1
        · exact absurd hx h2
        · exact ⟨h1, h2⟩
    · rw [dedup_first, if_neg hx]
      constructor
      · intro h
        rcases List.mem_cons.mp h with rfl | h
        · exact ⟨List.mem_cons_self a xs, hx⟩
        · rw [ih] at h
          refine ⟨List.mem_cons_of_mem x h.1, fun hs => h.2 (List.mem_cons_of_mem x hs)⟩
      · rintro ⟨h1, h2⟩
        rcases List.mem_cons.mp h1 with rfl | h1
        · exact List.mem_cons_self a _
        · by_cases hax : a = x
          · subst hax
            exact List.mem_cons_self a _
          · refine List.mem_cons_of_mem x ?_
            rw [ih]
            exact ⟨h1, fun hs => by
              rcases List.mem_cons.mp hs with h' | h'
              · exact hax h'
              · exact h2 h'⟩

lemma dedup_first_nodup (l seen : List (List Char)) :
    (dedup_first seen l).Nodup := by
  induction l generalizing seen with
  | nil => simp [dedup_first]
  | cons x xs ih =>
    by_cases hx : x ∈ seen
    · rw [dedup_first, if_pos hx]
      exact ih seen
    · rw [dedup_first, if_neg hx]
      refine List.nodup_cons.mpr ⟨?_, ih (x :: seen)⟩
      intro hmem
      rw [dedup_first_mem] at hmem
      exact hmem.2 (List.mem_cons_self x seen)

/-- C6: with the files-with-matches flag, `display_results` outputs
exactly the distinct file values of the matches, one line per file,
each colored as a file token (magenta), with no duplicates and nothing
else — the output does not depend on the line-number flag nor on the
table renderer or the word-wrapper. -/
theorem C6_files_with_matches (ms : List Match) (_hne : ms ≠ [])
    (r : RE) (ln : Bool) (C : Colors) (termW : Int)
    (tab1 tab2 : List (List (List Char)) → List Char)
    (fill1 fill2 : List Char → Int → List Char) :
    display_results ms r ln true C termW tab1 fill1 =
        (dedup_first [] (ms.map Match.file)).map
          (fun f => C.magenta ++ f ++ C.no_color) ∧
      (dedup_first [] (ms.map Match.file)).Nodup ∧
      (∀ f, f ∈ dedup_first [] (ms.map Match.file) ↔
        ∃ m ∈ ms, m.file = f) ∧
      display_results ms r true true C termW tab1 fill1 =
        display_results ms r false true C termW tab2 fill2 := by
  refine ⟨rfl, dedup_first_nodup _ _, ?_, rfl⟩
  intro f
  rw [dedup_first_mem]
  simp [List.mem_map, eq_comm]

/-- Witness for C6: three matches over two files print exactly the two
distinct file names in magenta. -/
theorem C6_files_with_matches_witness :
    display_results
        [⟨['a'], 1, ['x'], ['y']⟩, ⟨['b'], 2, ['x'], ['y']⟩,
          ⟨['a'], 3, ['z'], ['w']⟩] .eps true true
        ⟨['R'], ['G'], ['M'], ['N']⟩ 80 (fun _ => ['T']) (fun s _ => s) =
      [['M', 'a', 'N'], ['M', 'b', 'N']] := by
  have h := C6_files_with_matches
    [⟨['a'], 1, ['x'], ['y']⟩, ⟨['b'], 2, ['x'], ['y']⟩,
      ⟨['a'], 3, ['z'], ['w']⟩] (by decide) .eps true
    ⟨['R'], ['G'], ['M'], ['N']⟩ 80 (fun _ => ['T']) (fun _ => ['T'])
    (fun s _ => s) (fun s _ => s)
  exact h.1.trans (by decide)

lemma lexPat_bsb (r : List Char) :
    lexPat ('\\' :: 'b' :: r) = (lexPat r).map (fun ts => Tok.bnd :: ts) := by
  rfl

lemma lexPat_bs_stop (d : Char) (r : List Char) (hd : ¬d = 'b')
    (ha : (isAsciiAlnum d || decide (d = '_')) = true) :
    lexPat ('\\' :: d :: r) = none := by
  have h1 : lexPat ('\\' :: d :: r) =
      if d = 'b' then (lexPat r).map (fun ts => Tok.bnd :: ts)
      else if (isAsciiAlnum d || decide (d = '_')) = true then none
      else (lexPat r).map (fun ts => Tok.ch d :: ts) := rfl
  rw [h1, if_neg hd, if_pos ha]

lemma lexPat_bs_ch (d : Char) (r : List Char) (hd : ¬d = 'b')
    (ha : ¬(isAsciiAlnum d || decide (d = '_')) = true) :
    lexPat ('\\' :: d :: r) = (lexPat r).map (fun ts => Tok.ch d :: ts) := by
  have h1 : lexPat ('\\' :: d :: r) =
      if d = 'b' then (lexPat r).map (fun ts => Tok.bnd :: ts)
      else if (isAsciiAlnum d || decide (d = '_')) = true then none
      else (lexPat r).map (fun ts => Tok.ch d :: ts) := rfl
  rw [h1, if_neg hd, if_neg ha]

lemma lexPat_plain (c : Char) (r : List Char) (hc : ¬c = '\\') :
    lexPat (c :: r) =
      (if c = '.' then (lexPat r).map (fun ts => Tok.dot :: ts)
       else if c = '|' then (lexPat r).map (fun ts => Tok.bar :: ts)
       else if c ∈ unsupportedChars then none
       else (lexPat r).map (fun ts => Tok.ch c :: ts)) := by
  cases r with
  | nil =>
    have h1 : lexPat [c] =
        if c = '\\' then none
        else if c = '.' then (lexPat []).map (fun ts => Tok.dot :: ts)
        else if c = '|' then (lexPat []).map (fun ts => Tok.bar :: ts)
        else if c ∈ unsupportedChars then none
        else (lexPat []).map (fun ts => Tok.ch c :: ts) := rfl
    rw [h1, if_neg hc]
  | cons d r2 =>
    have h1 : lexPat (c :: d :: r2) =
        if c = '\\' then
          (if d = 'b' then (lexPat r2).map (fun ts => Tok.bnd :: ts)
           else if (isAsciiAlnum d || decide (d = '_')) = true then none
           else (lexPat r2).map (fun ts => Tok.ch d :: ts))
        else if c = '.' then (lexPat (d :: r2)).map (fun ts => Tok.dot :: ts)
        else if c = '|' then (lexPat (d :: r2)).map (fun ts => Tok.bar :: ts)
        else if c ∈ unsupportedChars then none
        else (lexPat (d :: r2)).map (fun ts => Tok.ch c :: ts) := rfl
    rw [h1, if_neg hc]

lemma lexPat_append (q : List Char) (us : List Tok)
    (hq : lexPat q = some us) :
    ∀ p ts, lexPat p = some ts → lexPat (p ++ q) = some (ts ++ us) := by
  suffices H : ∀ n p ts, p.length = n → lexPat p = some ts →
      lexPat (p ++ q) = some (ts ++ us) by
    intro p ts hp
    exact H p.length p ts rfl hp
  intro n
  induction n using Nat.strong_induction_on with
  | _ n ih =>
    intro p ts hlen hp
    cases p with
    | nil =>
      simp only [lexPat, Option.some.injEq] at hp
      subst hp
      simpa using hq
    | cons c rest =>
      by_cases hc : c = '\\'
      · subst hc
        cases rest with
        | nil => simp [lexPat] at hp
        | cons d rest2 =>
          by_cases hd : d = 'b'
          · subst hd
            rw [lexPat_bsb] at hp
            cases hlex : lexPat rest2 with
            | none => rw [hlex] at hp; simp at hp
            | some ts2 =>
              rw [hlex] at hp
              simp only [Option.map_some', Option.some.injEq] at hp
              subst hp
              have hrec := ih rest2.length (by simp at hlen; omega) rest2 ts2 rfl hlex
              rw [List.cons_append, List.cons_append, lexPat_bsb, hrec]
              simp
          · by_cases ha : (isAsciiAlnum d || decide (d = '_')) = true
            · rw [lexPat_bs_stop d rest2 hd ha] at hp
              simp at hp
            · rw [lexPat_bs_ch d rest2 hd ha] at hp
              cases hlex : lexPat rest2 with
              | none => rw [hlex] at hp; simp at hp
              | some ts2 =>
                rw [hlex] at hp
                simp only [Option.map_some', Option.some.injEq] at hp
                subst hp
                have hrec := ih rest2.length (by simp at hlen; omega) rest2 ts2 rfl hlex
                rw [List.cons_append, List.cons_append,
                  lexPat_bs_ch d (rest2 ++ q) hd ha, hrec]
                simp
      · rw [lexPat_plain c rest hc] at hp
        by_cases hdot : c = '.'
        · rw [if_pos hdot] at hp
          cases hlex : lexPat rest with
          | none => rw [hlex] at hp; simp at hp
          | some ts2 =>
            rw [hlex] at hp
            simp only [Option.map_some', Option.some.injEq] at hp
            subst hp
            have hrec := ih rest.length (by simp at hlen; omega) rest ts2 rfl hlex
            rw [List.cons_append, lexPat_plain c (rest ++ q) hc,
              if_pos hdot, hrec]
            simp
        · rw [if_neg hdot] at hp
          by_cases hbr : c = '|'
          · rw [if_pos hbr] at hp
            cases hlex : lexPat rest with
            | none => rw [hlex] at hp; simp at hp
            | some ts2 =>
              rw [hlex] at hp
              simp only [Option.map_some', Option.some.injEq] at hp
              subst hp
              have hrec := ih rest.length (by simp at hlen; omega) rest ts2 rfl hlex
              rw [List.cons_append, lexPat_plain c (rest ++ q) hc,
                if_neg hdot, if_pos hbr, hrec]
              simp
          · rw [if_neg hbr] at hp
            by_cases hun : c ∈ unsupportedChars
            · rw [if_pos hun] at hp
              simp at hp
            · rw [if_neg hun] at hp
              cases hlex : lexPat rest with
              | none => rw [hlex] at hp; simp at hp
              | some ts2 =>
                rw [hlex] at hp
                simp only [Option.map_some', Option.some.injEq] at hp
                subst hp
                have hrec := ih rest.length (by simp at hlen; omega) rest ts2 rfl hlex
                rw [List.cons_append, lexPat_plain c (rest ++ q) hc,
                  if_neg hdot, if_neg hbr, if_neg hun, hrec]
                simp

lemma splitBars_no_bar (ts : List Tok) (h : Tok.bar ∉ ts) :
    splitBars ts = [ts] := by
  induction ts with
  | nil => rfl
  | cons t rest ih =>
    have ht : t ≠ Tok.bar := fun hbar => h (hbar ▸ List.mem_cons_self t rest)
    have hrest : Tok.bar ∉ rest := fun hr => h (List.mem_cons_of_mem t hr)
    rw [splitBars, if_neg ht, ih hrest]

lemma endsAt_seqOf_last_bnd (full : List Char) (ts : List Tok) :
    ∀ i e, e ∈ endsAt (seqOf (ts ++ [Tok.bnd])) full i →
      isBoundaryAt full e = true := by
  induction ts with
  | nil =>
    intro i e he
    simp only [List.nil_append, seqOf, List.foldr_cons, List.foldr_nil,
      atomRE] at he
    simp only [endsAt, List.mem_flatMap] at he
    obtain ⟨m, hm, he⟩ := he
    by_cases hb : isBoundaryAt full i = true
    · rw [if_pos hb] at hm
      simp only [List.mem_singleton] at hm
      simp only [endsAt, List.mem_singleton] at he
      subst hm; subst he
      exact hb
    · rw [if_neg hb] at hm
      simp at hm
  | cons t rest ih =>
    intro i e he
    simp only [List.cons_append, seqOf, List.foldr_cons] at he
    simp only [endsAt, List.mem_flatMap] at he
    obtain ⟨m, _, he⟩ := he
    exact ih m e he

lemma endsAt_bnd_first (full : List Char) (r : RE) (i e : Nat)
    (he : e ∈ endsAt (.seq .bnd r) full i) : isBoundaryAt full i = true := by
  simp only [endsAt, List.mem_flatMap] at he
  obtain ⟨m, hm, _⟩ := he
  by_cases hb : isBoundaryAt full i = true
  · exact hb
  · rw [if_neg hb] at hm
    simp at hm

lemma boundary_not_inside (full : List Char) (k : Nat)
    (hb : isBoundaryAt full k = true) :
    (decide (0 < k) && wordAt full (k - 1) && wordAt full k) = false := by
  by_contra hne
  simp only [Bool.not_eq_false, Bool.and_eq_true, decide_eq_true_eq] at hne
  obtain ⟨⟨hk, hprev⟩, hhere⟩ := hne
  unfold isBoundaryAt at hb
  rw [hprev, hhere] at hb
  simp [hk] at hb

/-- C10 (amended): for a raw pattern of the modelled dialect subset with
no top-level alternation, the whole-word compiled pattern `\b…\b` only
matches spans whose two endpoints are word boundaries, so no match lies
strictly inside a larger alphanumeric run. -/
theorem C10_whole_word_no_inner_match (p : List Char) (ts : List Tok)
    (r : RE) (hlex : lexPat p = some ts) (hbar : Tok.bar ∉ ts)
    (hparse : parseRE (word_step true p) = some r)
    (full : List Char) (i e : Nat) (hm : e ∈ endsAt r full i) :
    strictlyInsideRun full i e = false := by
  have hlexb : lexPat ['\\', 'b'] = some [Tok.bnd] := by rfl
  have h1 : lexPat (p ++ ['\\', 'b']) = some (ts ++ [Tok.bnd]) :=
    lexPat_append ['\\', 'b'] [Tok.bnd] hlexb p ts hlex
  have h2 : lexPat (['\\', 'b'] ++ (p ++ ['\\', 'b'])) =
      some ([Tok.bnd] ++ (ts ++ [Tok.bnd])) :=
    lexPat_append (p ++ ['\\', 'b']) (ts ++ [Tok.bnd]) h1 ['\\', 'b']
      [Tok.bnd] hlexb
  have hwrap : word_step true p = ['\\', 'b'] ++ (p ++ ['\\', 'b']) := by
    simp [word_step]
  have hnobar : Tok.bar ∉ [Tok.bnd] ++ (ts ++ [Tok.bnd]) := by
    intro hmem
    simp only [List.mem_append, List.mem_singleton] at hmem
    rcases hmem with h | h | h
    · exact absurd h (by decide)
    · exact hbar h
    · exact absurd h (by decide)
  have hr : r = seqOf ([Tok.bnd] ++ (ts ++ [Tok.bnd])) := by
    rw [hwrap] at hparse
    unfold parseRE at hparse
    rw [h2] at hparse
    simp only [Option.map_some', Option.some.injEq] at hparse
    rw [splitBars_no_bar _ hnobar] at hparse
    simp only [altOf] at hparse
    exact hparse.symm
  subst hr
  have hfirst : isBoundaryAt full i = true := by
    have : seqOf ([Tok.bnd] ++ (ts ++ [Tok.bnd])) =
        .seq .bnd (seqOf (ts ++ [Tok.bnd])) := rfl
    rw [this] at hm
    exact endsAt_bnd_first full _ i e hm
  have hlast : isBoundaryAt full e = true := by
    have : seqOf ([Tok.bnd] ++ (ts ++ [Tok.bnd])) =
        .seq .bnd (seqOf (ts ++ [Tok.bnd])) := rfl
    rw [this] at hm
    simp only [endsAt, List.mem_flatMap] at hm
    obtain ⟨m, _, hm⟩ := hm
    exact endsAt_seqOf_last_bnd full ts m e hm
  unfold strictlyInsideRun
  rw [boundary_not_inside full i hfirst, boundary_not_inside full e hlast]
  rfl

/-- Witness for C10 (amended): the pattern `cat`, whole-word compiled,
matching the whole of `cat`. -/
theorem C10_whole_word_witness :
    strictlyInsideRun ['c', 'a', 't'] 0 3 = false := by
  refine C10_whole_word_no_inner_match ['c', 'a', 't']
    [Tok.ch 'c', Tok.ch 'a', Tok.ch 't']
    (.seq .bnd (.seq (.ch 'c') (.seq (.ch 'a') (.seq (.ch 't')
      (.seq .bnd .eps)))))
    (by decide) (by decide) (by decide) ['c', 'a', 't'] 0 3 (by decide)

/-- Counterexample to C10 as stated: for the raw pattern `a|b` the
whole-word compilation is the string `\ba|b\b`, whose alternation splits
the anchors: its second branch `b\b` matches the final `b` of `cab` —
a span starting strictly inside the alphanumeric run `cab`. -/
theorem C10_counterexample_alternation :
    parseRE (word_step true ['a', '|', 'b']) =
        some (.alt (.seq .bnd (.seq (.ch 'a') .eps))
          (.seq (.ch 'b') (.seq .bnd .eps))) ∧
      3 ∈ endsAt (.alt (.seq .bnd (.seq (.ch 'a') .eps))
          (.seq (.ch 'b') (.seq .bnd .eps))) ['c', 'a', 'b'] 2 ∧
      strictlyInsideRun ['c', 'a', 'b'] 2 3 = true := by
  decide

lemma strip_all_in (cc s : List Char) (h : ∀ c ∈ s, c ∈ cc) :
    stripColors cc s = [] := by
  rw [stripColors, List.filter_eq_nil_iff]
  intro c hc
  simpa using h c hc

lemma strip_none_in (cc s : List Char) (h : ∀ c ∈ s, c ∉ cc) :
    stripColors cc s = s := by
  rw [stripColors, List.filter_eq_self]
  intro c hc
  simpa using h c hc

lemma strip_append (cc s t : List Char) :
    stripColors cc (s ++ t) = stripColors cc s ++ stripColors cc t := by
  simp [stripColors]

lemma sub_all_aux_no_match (r : RE) (repl : List Char → List Char)
    (full : List Char) (h : ∀ i < full.length + 1, endsAt r full i = []) :
    ∀ fuel pos, sub_all_aux r repl full pos fuel = full.drop pos := by
  intro fuel
  induction fuel with
  | zero => intro pos; rfl
  | succ fuel ih =>
    intro pos
    simp only [sub_all_aux]
    by_cases hp : full.length < pos
    · rw [if_pos hp, List.drop_eq_nil_of_le (le_of_lt hp)]
    · rw [if_neg hp, h pos (by omega)]
      simp only [List.head?_nil]
      cases hg : full.get? pos with
      | some c =>
        rw [ih (pos + 1)]
        have hlt : pos < full.length := (List.get?_eq_some.mp hg).1
        rw [List.drop_eq_getElem_cons hlt]
        have : full[pos] = c := by
          have := List.get?_eq_getElem? full pos
          rw [hg] at this
          have h2 := List.getElem?_eq_getElem hlt
          rw [h2] at this
          exact (Option.some.injEq _ _).mp this.symm
        rw [this]
      | none =>
        have hge : full.length ≤ pos := List.get?_eq_none.mp hg
        rw [List.drop_eq_nil_of_le hge]

lemma sub_all_no_match (r : RE) (repl : List Char → List Char)
    (full : List Char) (h : ∀ i < full.length + 1, endsAt r full i = []) :
    sub_all r repl full = full := by
  rw [sub_all, sub_all_aux_no_match r repl full h, List.drop_zero]

lemma strip_cons_keep (cc : List Char) (c : Char) (s : List Char)
    (h : c ∉ cc) :
    stripColors cc (c :: s) = c :: stripColors cc s := by
  have hb : (!cc.contains c) = true := by simpa using h
  simp [stripColors, List.filter_cons, hb, h]

lemma strip_sub_all_aux (cc : List Char) (r : RE) (red nc full : List Char)
    (hred : ∀ c ∈ red, c ∈ cc) (hnc : ∀ c ∈ nc, c ∈ cc)
    (hfull : ∀ c ∈ full, c ∉ cc) :
    ∀ fuel pos,
      stripColors cc (sub_all_aux r (fun m => red ++ m ++ nc) full pos fuel) =
        full.drop pos := by
  have hdrop : ∀ pos, stripColors cc (full.drop pos) = full.drop pos :=
    fun pos => strip_none_in cc _ (fun c hc => hfull c (List.mem_of_mem_drop hc))
  intro fuel
  induction fuel with
  | zero => intro pos; exact hdrop pos
  | succ fuel ih =>
    intro pos
    simp only [sub_all_aux]
    by_cases hp : full.length < pos
    · rw [if_pos hp]
      rw [List.drop_eq_nil_of_le (le_of_lt hp)]
      rfl
    · rw [if_neg hp]
      cases he : (endsAt r full pos).head? with
      | none =>
        cases hg : full.get? pos with
        | some c =>
          have hcfull : c ∈ full := List.get?_mem hg
          have hlt : pos < full.length := (List.get?_eq_some.mp hg).1
          show stripColors cc
            (c :: sub_all_aux r (fun m => red ++ m ++ nc) full (pos + 1) fuel) =
            full.drop pos
          rw [strip_cons_keep cc c _ (hfull c hcfull), ih (pos + 1)]
          rw [List.drop_eq_getElem_cons hlt]
          have hgc : full[pos] = c := by
            have h1 := List.get?_eq_getElem? full pos
            rw [hg, List.getElem?_eq_getElem hlt] at h1
            exact (Option.some.injEq _ _).mp h1.symm
          rw [hgc]
        | none =>
          have hge : full.length ≤ pos := List.get?_eq_none.mp hg
          rw [List.drop_eq_nil_of_le hge]
          rfl
      | some e =>
        show stripColors cc
            (if pos < e then
              red ++ spanOf full pos e ++ nc ++
                sub_all_aux r (fun m => red ++ m ++ nc) full e fuel
            else red ++ [] ++ nc ++
              match full.get? pos with
              | some c =>
                c :: sub_all_aux r (fun m => red ++ m ++ nc) full (pos + 1) fuel
              | none => []) = full.drop pos
        by_cases hlt : pos < e
        · rw [if_pos hlt]
          rw [strip_append, strip_append, strip_append]
          rw [strip_all_in cc red hred, strip_all_in cc nc hnc]
          have hspan : ∀ c ∈ spanOf full pos e, c ∉ cc := by
            intro c hc
            refine hfull c ?_
            exact List.mem_of_mem_drop (List.mem_of_mem_take hc)
          rw [strip_none_in cc _ hspan, ih e]
          simp only [List.nil_append, List.append_nil]
          rw [spanOf]
          have hd : full.drop e = (full.drop pos).drop (e - pos) := by
            rw [List.drop_drop]
            congr 1
            omega
          rw [hd, List.take_append_drop]
        · rw [if_neg hlt]
          cases hg : full.get? pos with
          | some c =>
            have hcfull : c ∈ full := List.get?_mem hg
            have hplt : pos < full.length := (List.get?_eq_some.mp hg).1
            show stripColors cc ((red ++ [] ++ nc) ++
              (c :: sub_all_aux r (fun m => red ++ m ++ nc) full (pos + 1) fuel)) =
              full.drop pos
            rw [strip_append]
            have hrn : ∀ x ∈ red ++ [] ++ nc, x ∈ cc := by
              intro x hx
              simp only [List.append_nil, List.mem_append] at hx
              rcases hx with hx | hx
              · exact hred x hx
              · exact hnc x hx
            rw [strip_all_in cc _ hrn]
            rw [strip_cons_keep cc c _ (hfull c hcfull), ih (pos + 1)]
            rw [List.drop_eq_getElem_cons hplt]
            have hgc : full[pos] = c := by
              have h1 := List.get?_eq_getElem? full pos
              rw [hg, List.getElem?_eq_getElem hplt] at h1
              exact (Option.some.injEq _ _).mp h1.symm
            rw [hgc]
            rfl
          | none =>
            have hge : full.length ≤ pos := List.get?_eq_none.mp hg
            show stripColors cc ((red ++ [] ++ nc) ++ []) = full.drop pos
            rw [List.drop_eq_nil_of_le hge]
            rw [strip_append]
            have hrn : ∀ x ∈ red ++ [] ++ nc, x ∈ cc := by
              intro x hx
              simp only [List.append_nil, List.mem_append] at hx
              rcases hx with hx | hx
              · exact hred x hx
              · exact hnc x hx
            rw [strip_all_in cc _ hrn]
            rfl

lemma strip_sub_all (cc : List Char) (r : RE) (red nc full : List Char)
    (hred : ∀ c ∈ red, c ∈ cc) (hnc : ∀ c ∈ nc, c ∈ cc)
    (hfull : ∀ c ∈ full, c ∉ cc) :
    stripColors cc (sub_all r (fun m => red ++ m ++ nc) full) = full := by
  rw [sub_all, strip_sub_all_aux cc r red nc full hred hnc hfull, List.drop_zero]

lemma lexPat_all_plain (s : List Char) (h : ∀ c ∈ s, plainChar c) :
    lexPat s = some (s.map Tok.ch) := by
  induction s with
  | nil => rfl
  | cons c rest ih =>
    obtain ⟨hc, hdot, hbr, hun⟩ := h c (List.mem_cons_self c rest)
    rw [lexPat_plain c rest hc, if_neg hdot, if_neg hbr, if_neg hun,
      ih (fun x hx => h x (List.mem_cons_of_mem c hx))]
    rfl

lemma parseRE_all_plain (s : List Char) (h : ∀ c ∈ s, plainChar c) :
    parseRE s = some (litRE s) := by
  unfold parseRE litRE
  rw [lexPat_all_plain s h]
  simp only [Option.map_some']
  rw [splitBars_no_bar]
  · cases s with
    | nil => rfl
    | cons c rest => rfl
  · intro hmem
    simp only [List.mem_map] at hmem
    obtain ⟨x, _, hx⟩ := hmem
    exact absurd hx (by simp)

lemma endsAt_lit (w full : List Char) :
    ∀ i, endsAt (litRE w) full i =
      if w <+: full.drop i then [i + w.length] else [] := by
  induction w with
  | nil =>
    intro i
    simp [litRE, seqOf, endsAt]
  | cons c w ih =>
    intro i
    show endsAt (.seq (.ch c) (litRE w)) full i = _
    simp only [endsAt]
    cases hg : full.get? i with
    | none =>
      have hlen : full.length ≤ i := List.get?_eq_none.mp hg
      rw [List.drop_eq_nil_of_le hlen]
      have hnp : ¬(c :: w <+: ([] : List Char)) := by
        intro hpre
        have := List.prefix_nil.mp hpre
        exact absurd this (by simp)
      rw [if_neg hnp]
      simp
    | some d =>
      have hlt : i < full.length := (List.get?_eq_some.mp hg).1
      have hdrop : full.drop i = d :: full.drop (i + 1) := by
        rw [List.drop_eq_getElem_cons hlt]
        have h1 := List.get?_eq_getElem? full i
        rw [hg, List.getElem?_eq_getElem hlt] at h1
        rw [(Option.some.injEq _ _).mp h1.symm]
      rw [hdrop]
      show (if d = c then [i + 1] else ([] : List Nat)).flatMap
          (fun m => endsAt (litRE w) full m) =
        if c :: w <+: d :: full.drop (i + 1) then [i + (c :: w).length] else []
      by_cases hdc : d = c
      · subst hdc
        rw [if_pos rfl]
        have hl : ([i + 1] : List Nat).flatMap
            (fun m => endsAt (litRE w) full m) =
            endsAt (litRE w) full (i + 1) := by simp
        rw [hl, ih (i + 1)]
        have hiff : (d :: w <+: d :: full.drop (i + 1)) ↔
            (w <+: full.drop (i + 1)) := by
          constructor
          · intro hpre
            exact (List.cons_prefix_cons.mp hpre).2
          · intro hpre
            exact List.cons_prefix_cons.mpr ⟨rfl, hpre⟩
        by_cases hw : w <+: full.drop (i + 1)
        · rw [if_pos hw, if_pos (hiff.mpr hw)]
          have h2 : i + 1 + w.length = i + (d :: w).length := by
            simp only [List.length_cons]
            omega
          rw [h2]
        · rw [if_neg hw, if_neg (fun hp => hw (hiff.mp hp))]
      · rw [if_neg hdc]
        have hnp : ¬(c :: w <+: d :: full.drop (i + 1)) := by
          intro hpre
          exact hdc ((List.cons_prefix_cons.mp hpre).1.symm)
        rw [if_neg hnp]
        simp

lemma first_match_aux_lit (w before after : List Char)
    (hfirst : ∀ k < before.length, ¬ w <+: (before ++ w ++ after).drop k) :
    ∀ fuel pos, pos + fuel = (before ++ w ++ after).length + 1 →
      pos ≤ before.length →
      first_match_aux (litRE w) (before ++ w ++ after) fuel pos =
        some (before.length, before.length + w.length) := by
  have hblen : before.length ≤ (before ++ w ++ after).length := by
    simp only [List.length_append]
    omega
  intro fuel
  induction fuel with
  | zero =>
    intro pos hpos hle
    omega
  | succ fuel ih =>
    intro pos hpos hle
    show (match (endsAt (litRE w) (before ++ w ++ after) pos).head? with
      | some e => some (pos, e)
      | none =>
        if pos < (before ++ w ++ after).length then
          first_match_aux (litRE w) (before ++ w ++ after) fuel (pos + 1)
        else none) = some (before.length, before.length + w.length)
    by_cases hpos' : pos = before.length
    · subst hpos'
      rw [endsAt_lit]
      have hpre : w <+: (before ++ w ++ after).drop before.length := by
        rw [List.append_assoc, List.drop_left]
        exact List.prefix_append w after
      rw [if_pos hpre]
      rfl
    · have hlt : pos < before.length := by omega
      rw [endsAt_lit]
      rw [if_neg (hfirst pos hlt)]
      have hplen : pos < (before ++ w ++ after).length := by omega
      simp only [List.head?_nil]
      rw [if_pos hplen]
      exact ih (pos + 1) (by omega) (by omega)

lemma firstMatchFrom_lit (w before after : List Char)
    (hfirst : ∀ k < before.length, ¬ w <+: (before ++ w ++ after).drop k) :
    firstMatchFrom (litRE w) (before ++ w ++ after) 0 =
      some (before.length, before.length + w.length) := by
  rw [firstMatchFrom]
  exact first_match_aux_lit w before after hfirst
    ((before ++ w ++ after).length + 1 - 0) 0 (by omega) (by omega)

lemma sub_once_lit (w before after : List Char) (repl : List Char → List Char)
    (hfirst : ∀ k < before.length, ¬ w <+: (before ++ w ++ after).drop k) :
    sub_once (litRE w) repl (before ++ w ++ after) =
      before ++ repl (spanOf (before ++ w ++ after) before.length
        (before.length + w.length)) ++ after := by
  rw [sub_once]
  rw [firstMatchFrom_lit w before after hfirst]
  show (before ++ w ++ after).take before.length ++
      repl (spanOf (before ++ w ++ after) before.length
        (before.length + w.length)) ++
      (before ++ w ++ after).drop (before.length + w.length) = _
  have htake : (before ++ w ++ after).take before.length = before := by
    rw [List.append_assoc, List.take_left]
  have hdropfull : (before ++ w ++ after).drop (before.length + w.length) =
      after := by
    have h1 : before.length + w.length = (before ++ w).length := by
      simp
    rw [h1, List.drop_left]
  rw [htake, hdropfull]

lemma span_lit (w before after : List Char) :
    spanOf (before ++ w ++ after) before.length (before.length + w.length) =
      w := by
  rw [spanOf]
  rw [List.append_assoc, List.drop_left]
  have : before.length + w.length - before.length = w.length := by omega
  rw [this, List.take_left]

lemma specialChars_not_escape :
    ∀ c ∈ specialChars,
      ¬c = 'b' ∧ ¬((isAsciiAlnum c || decide (c = '_')) = true) := by
  decide

lemma unsupported_sub_special : ∀ c ∈ unsupportedChars, c ∈ specialChars := by
  decide

lemma not_special_plain (c : Char) (hc : c ∉ specialChars) : plainChar c := by
  refine ⟨?_, ?_, ?_, ?_⟩
  · intro h
    subst h
    exact hc (by decide)
  · intro h
    subst h
    exact hc (by decide)
  · intro h
    subst h
    exact hc (by decide)
  · intro h
    exact hc (unsupported_sub_special c h)

lemma lexPat_regex_escape (w : List Char) :
    lexPat (regex_escape w) = some (w.map Tok.ch) := by
  induction w with
  | nil => rfl
  | cons c w ih =>
    show lexPat ((if c ∈ specialChars then ['\\', c] else [c]) ++
      regex_escape w) = _
    by_cases hc : c ∈ specialChars
    · rw [if_pos hc]
      have hfact := specialChars_not_escape c hc
      simp only [List.cons_append, List.nil_append]
      rw [lexPat_bs_ch c _ hfact.1 hfact.2, ih]
      rfl
    · rw [if_neg hc]
      obtain ⟨h1, h2, h3, h4⟩ := not_special_plain c hc
      simp only [List.cons_append, List.nil_append]
      rw [lexPat_plain c _ h1, if_neg h2, if_neg h3, if_neg h4, ih]
      rfl

lemma parseRE_escape (w : List Char) :
    parseRE (regex_escape w) = some (litRE w) := by
  unfold parseRE litRE
  rw [lexPat_regex_escape]
  simp only [Option.map_some']
  rw [splitBars_no_bar]
  · cases w with
    | nil => rfl
    | cons c w => rfl
  · intro hmem
    simp only [List.mem_map] at hmem
    obtain ⟨x, _, hx⟩ := hmem
    exact absurd hx (by simp)

lemma first_match_aux_lit_spec (v full : List Char) :
    ∀ fuel pos i e, first_match_aux (litRE v) full fuel pos = some (i, e) →
      e = i + v.length ∧ v <+: full.drop i := by
  intro fuel
  induction fuel with
  | zero =>
    intro pos i e h
    exact absurd h (by simp [first_match_aux])
  | succ fuel ih =>
    intro pos i e h
    rw [show first_match_aux (litRE v) full (fuel + 1) pos =
      (match (endsAt (litRE v) full pos).head? with
        | some e2 => some (pos, e2)
        | none =>
          if pos < full.length then
            first_match_aux (litRE v) full fuel (pos + 1)
          else none) from rfl] at h
    rw [endsAt_lit] at h
    by_cases hp : v <+: full.drop pos
    · rw [if_pos hp] at h
      simp only [List.head?_cons, Option.some.injEq, Prod.mk.injEq] at h
      obtain ⟨h1, h2⟩ := h
      subst h1
      subst h2
      exact ⟨rfl, hp⟩
    · rw [if_neg hp] at h
      simp only [List.head?_nil] at h
      by_cases hl : pos < full.length
      · rw [if_pos hl] at h
        exact ih (pos + 1) i e h
      · rw [if_neg hl] at h
        exact absurd h (by simp)

lemma strip_sub_once_occ (cc v repl2 result : List Char)
    (hv : stripColors cc v = stripColors cc repl2) :
    stripColors cc (sub_once (litRE v) (fun _ => repl2) result) =
      stripColors cc result := by
  rw [sub_once]
  cases hfm : firstMatchFrom (litRE v) result 0 with
  | none => rfl
  | some ie =>
    obtain ⟨i, e⟩ := ie
    rw [firstMatchFrom] at hfm
    obtain ⟨he, hpre⟩ := first_match_aux_lit_spec v result _ 0 i e hfm
    show stripColors cc (result.take i ++ repl2 ++ result.drop e) =
      stripColors cc result
    obtain ⟨t, ht⟩ := hpre
    have hdropE : result.drop e = t := by
      rw [he, ← List.drop_drop, ← ht, List.drop_left]
    have hres : result.take i ++ v ++ result.drop e = result := by
      rw [hdropE, List.append_assoc, ht, List.take_append_drop]
    calc
      stripColors cc (result.take i ++ repl2 ++ result.drop e)
          = stripColors cc (result.take i) ++ stripColors cc repl2 ++
            stripColors cc (result.drop e) := by
            rw [strip_append, strip_append]
      _ = stripColors cc (result.take i) ++ stripColors cc v ++
            stripColors cc (result.drop e) := by rw [← hv]
      _ = stripColors cc (result.take i ++ v ++ result.drop e) := by
            rw [strip_append, strip_append]
      _ = stripColors cc result := by rw [hres]

lemma strip_recolored (cc : List Char) (C : Colors) (pnum pfile : List Char)
    (hmag : ∀ c ∈ C.magenta, c ∈ cc) (hgrn : ∀ c ∈ C.green, c ∈ cc)
    (hnc : ∀ c ∈ C.no_color, c ∈ cc)
    (hpcc : ∀ c ∈ ' ' :: (pfile ++ pnum), c ∉ cc) :
    stripColors cc
        (' ' :: (C.magenta ++ pfile ++ C.green ++ pnum ++ C.no_color)) =
      ' ' :: (pfile ++ pnum) := by
  have hsp : (' ' : Char) ∉ cc := hpcc ' ' (List.mem_cons_self _ _)
  have hpf : ∀ c ∈ pfile, c ∉ cc := fun c hc => hpcc c (by simp [hc])
  have hpn : ∀ c ∈ pnum, c ∉ cc := fun c hc => hpcc c (by simp [hc])
  rw [strip_cons_keep cc ' ' _ hsp]
  rw [strip_append, strip_append, strip_append, strip_append]
  rw [strip_all_in cc _ hmag, strip_all_in cc _ hgrn, strip_all_in cc _ hnc,
    strip_none_in cc _ hpf, strip_none_in cc _ hpn]
  simp

/-- The prefix step for a prefix the pattern does not color: whichever
branch the escape test takes, the searched pattern is the literal prefix
(raw when plain, escaped otherwise — both parse to `litRE`), so the step
is one literal substitution with the recolored prefix. -/
lemma colorize_step_literal (r : RE) (C : Colors)
    (pnum pfile result : List Char)
    (hnm_pfx : ∀ i < (' ' :: (pfile ++ pnum)).length + 1,
      endsAt r (' ' :: (pfile ++ pnum)) i = [])
    (hplain : ∀ c ∈ ' ' :: (pfile ++ pnum), plainChar c) :
    colorize_step r C result (pnum, pfile) =
      sub_once (litRE (' ' :: (pfile ++ pnum)))
        (fun _ => ' ' :: (C.magenta ++ pfile ++ C.green ++ pnum ++ C.no_color))
        result := by
  simp only [colorize_step]
  rw [sub_all_no_match r _ _ hnm_pfx]
  by_cases hesc : isSubstr (regex_escape C.red)
      (regex_escape (' ' :: (pfile ++ pnum))) = true
  · rw [if_pos hesc, parseRE_escape]
  · rw [if_neg hesc, parseRE_all_plain _ hplain]

/-- One prefix step never changes the stripped (visible) text, for any
pattern and any current text: the replaced span — the literal prefix, or
its pattern-colored form when the escape test selects the escaped branch
— strips to the same characters as the recolored replacement. -/
lemma strip_colorize_step (r : RE) (C : Colors) (cc : List Char)
    (result pnum pfile : List Char)
    (hred : ∀ c ∈ C.red, c ∈ cc) (hnc : ∀ c ∈ C.no_color, c ∈ cc)
    (hmag : ∀ c ∈ C.magenta, c ∈ cc) (hgrn : ∀ c ∈ C.green, c ∈ cc)
    (hplain : ∀ c ∈ ' ' :: (pfile ++ pnum), plainChar c)
    (hpcc : ∀ c ∈ ' ' :: (pfile ++ pnum), c ∉ cc) :
    stripColors cc (colorize_step r C result (pnum, pfile)) =
      stripColors cc result := by
  have hstripw : stripColors cc
      (sub_all r (fun m => C.red ++ m ++ C.no_color) (' ' :: (pfile ++ pnum))) =
      ' ' :: (pfile ++ pnum) :=
    strip_sub_all cc r C.red C.no_color _ hred hnc hpcc
  have hrecol := strip_recolored cc C pnum pfile hmag hgrn hnc hpcc
  simp only [colorize_step]
  by_cases hesc : isSubstr (regex_escape C.red)
      (regex_escape (sub_all r (fun m => C.red ++ m ++ C.no_color)
        (' ' :: (pfile ++ pnum)))) = true
  · rw [if_pos hesc, parseRE_escape]
    refine strip_sub_once_occ cc _ _ result ?_
    rw [hstripw, hrecol]
  · rw [if_neg hesc, parseRE_all_plain _ hplain]
    refine strip_sub_once_occ cc _ _ result ?_
    rw [strip_none_in cc _ hpcc, hrecol]

/-- C3 (amended): stripping the injected color-code characters from the
`colorize` output reproduces the input text exactly — for every pattern
(matching or not, anywhere, the prefixes included), every color scheme
drawn from a color-code character class `cc`, every text disjoint from
`cc`, and every list of `(line, file)` prefix pairs whose prefix strings
consist of plain literal characters (no regex metacharacters) disjoint
from `cc`.  A prefix containing a regex metacharacter may replace a
different substring and alter the underlying text. -/
theorem C3_strip_roundtrip (r : RE) (C : Colors) (cc text : List Char)
    (hred : ∀ c ∈ C.red, c ∈ cc) (hnc : ∀ c ∈ C.no_color, c ∈ cc)
    (hmag : ∀ c ∈ C.magenta, c ∈ cc) (hgrn : ∀ c ∈ C.green, c ∈ cc)
    (htext : ∀ c ∈ text, c ∉ cc)
    (pfxs : List (List Char × List Char))
    (hpfxs : ∀ p ∈ pfxs, (∀ c ∈ ' ' :: (p.2 ++ p.1), plainChar c) ∧
      (∀ c ∈ ' ' :: (p.2 ++ p.1), c ∉ cc)) :
    stripColors cc (colorize r C text pfxs) = text := by
  rw [colorize]
  have hstart : stripColors cc
      (sub_all r (fun m => C.red ++ m ++ C.no_color) text) = text :=
    strip_sub_all cc r C.red C.no_color text hred hnc htext
  suffices H : ∀ (ps : List (List Char × List Char)) (start : List Char),
      (∀ p ∈ ps, (∀ c ∈ ' ' :: (p.2 ++ p.1), plainChar c) ∧
        (∀ c ∈ ' ' :: (p.2 ++ p.1), c ∉ cc)) →
      stripColors cc start = text →
      stripColors cc (ps.foldl (colorize_step r C) start) = text by
    exact H pfxs _ hpfxs hstart
  intro ps
  induction ps with
  | nil =>
    intro start _ h
    simpa using h
  | cons p ps ih =>
    intro start hps h
    rw [List.foldl_cons]
    refine ih _ (fun q hq => hps q (List.mem_cons_of_mem p hq)) ?_
    obtain ⟨pnum, pfile⟩ := p
    obtain ⟨hplain, hpcc⟩ := hps (pnum, pfile) (List.mem_cons_self _ _)
    rw [strip_colorize_step r C cc start pnum pfile hred hnc hmag hgrn
      hplain hpcc]
    exact h

/-- Witness for C3 (amended): a pattern that does match the text, with
two prefix pairs (the second does not occur in the text). -/
theorem C3_strip_roundtrip_witness :
    stripColors ['\x11', '\x12', '\x13', '\x14']
      (colorize (.ch 'x') ⟨['\x11'], ['\x12'], ['\x14'], ['\x13']⟩
        ['x', ' ', 'f', ':', '1', ':']
        [([ '1', ':'], ['f', ':']), ([ '9', ':'], ['g', ':'])]) =
      ['x', ' ', 'f', ':', '1', ':'] := by
  exact C3_strip_roundtrip (.ch 'x')
    ⟨['\x11'], ['\x12'], ['\x14'], ['\x13']⟩
    ['\x11', '\x12', '\x13', '\x14'] ['x', ' ', 'f', ':', '1', ':']
    (by decide) (by decide) (by decide) (by decide) (by decide)
    [([ '1', ':'], ['f', ':']), ([ '9', ':'], ['g', ':'])] (by decide)

/-- Counterexample to C3 as stated: the prefix pass uses the raw prefix
string as a regular expression, so a prefix containing `.` (here from the
file name `a.py:`) can replace a different substring: on the text
` aXpy:30:hi`, which contains no color-code characters, stripping the
color codes from the `colorize` output yields ` a.py:30:hi` — the
underlying character `X` was altered. -/
theorem C3_counterexample_metachar_prefix :
    (∀ c ∈ [' ', 'a', 'X', 'p', 'y', ':', '3', '0', ':', 'h', 'i'],
        c ∉ ['\x11', '\x12', '\x13', '\x14']) ∧
      stripColors ['\x11', '\x12', '\x13', '\x14']
        (colorize (.ch 'z') ⟨['\x11'], ['\x12'], ['\x14'], ['\x13']⟩
          [' ', 'a', 'X', 'p', 'y', ':', '3', '0', ':', 'h', 'i']
          [([ '3', '0', ':'], ['a', '.', 'p', 'y', ':'])]) ≠
        [' ', 'a', 'X', 'p', 'y', ':', '3', '0', ':', 'h', 'i'] := by
  decide

/-- C4 (amended): when the pattern does not match within the rebuilt
prefix string (so the prefix appears uncolored in the pattern-colored
text) and the prefix consists only of plain literal characters, the
prefix pass replaces exactly the first occurrence of the literal prefix
in the already pattern-colored text — coloring the file token magenta
and the line token green — and leaves every other character of that
text, including pattern highlighting inserted elsewhere by the pattern
pass, unchanged.  When the prefix contains regex metacharacters the pass
may instead replace a different, earlier regex match, as the
counterexample shows; when the pattern matches inside the prefix the
code falls back to searching the escaped colored form. -/
theorem C4_prefix_first_literal (r : RE) (C : Colors)
    (pnum pfile before after text : List Char)
    (hcolored : sub_all r (fun m => C.red ++ m ++ C.no_color) text =
      before ++ (' ' :: (pfile ++ pnum)) ++ after)
    (hnm_pfx : ∀ i < (' ' :: (pfile ++ pnum)).length + 1,
      endsAt r (' ' :: (pfile ++ pnum)) i = [])
    (hplain : ∀ c ∈ ' ' :: (pfile ++ pnum), plainChar c)
    (hfirst : ∀ k < before.length, ¬ (' ' :: (pfile ++ pnum)) <+:
      (before ++ (' ' :: (pfile ++ pnum)) ++ after).drop k) :
    colorize r C text [(pnum, pfile)] =
      before ++ (' ' :: (C.magenta ++ pfile ++ C.green ++ pnum ++ C.no_color))
        ++ after := by
  rw [colorize]
  simp only [List.foldl_cons, List.foldl_nil]
  rw [hcolored]
  rw [colorize_step_literal r C pnum pfile _ hnm_pfx hplain]
  rw [sub_once_lit (' ' :: (pfile ++ pnum)) before after _ hfirst]

/-- Witness for C4 (amended): the pattern `x` matches the text before the
prefix; its highlighting is preserved outside the replaced span. -/
theorem C4_prefix_first_literal_witness :
    colorize (.ch 'x') ⟨['\x11'], ['\x12'], ['\x14'], ['\x13']⟩
        ['x', ' ', 'f', ':', '1', ':'] [([ '1', ':'], ['f', ':'])] =
      ['\x11', 'x', '\x13', ' ', '\x14', 'f', ':', '\x12', '1', ':',
        '\x13'] := by
  exact (C4_prefix_first_literal (.ch 'x')
    ⟨['\x11'], ['\x12'], ['\x14'], ['\x13']⟩ ['1', ':'] ['f', ':']
    ['\x11', 'x', '\x13'] [] ['x', ' ', 'f', ':', '1', ':']
    (by decide) (by decide) (by decide) (by decide)).trans (by decide)

/-- Counterexample to C4 as stated: on ` aXpy:30:x a.py:30:y` with prefix
pair `("30:", "a.py:")` the literal prefix ` a.py:30:` occurs (at index
10), but the pass replaces the earlier regex match ` aXpy:30:` (the `.`
of the file name matches `X`), so the first literal occurrence is not
the replaced span and characters outside it are changed. -/
theorem C4_counterexample_regex_prefix :
    isSubstr [' ', 'a', '.', 'p', 'y', ':', '3', '0', ':']
        [' ', 'a', 'X', 'p', 'y', ':', '3', '0', ':', 'x',
          ' ', 'a', '.', 'p', 'y', ':', '3', '0', ':', 'y'] = true ∧
      colorize (.ch 'z') ⟨['\x11'], ['\x12'], ['\x14'], ['\x13']⟩
          [' ', 'a', 'X', 'p', 'y', ':', '3', '0', ':', 'x',
            ' ', 'a', '.', 'p', 'y', ':', '3', '0', ':', 'y']
          [([ '3', '0', ':'], ['a', '.', 'p', 'y', ':'])] =
        [' ', '\x14', 'a', '.', 'p', 'y', ':', '\x12', '3', '0', ':', '\x13',
          'x', ' ', 'a', '.', 'p', 'y', ':', '3', '0', ':', 'y'] ∧
      [' ', '\x14', 'a', '.', 'p', 'y', ':', '\x12', '3', '0', ':', '\x13',
          'x', ' ', 'a', '.', 'p', 'y', ':', '3', '0', ':', 'y'] ≠
        [' ', 'a', 'X', 'p', 'y', ':', '3', '0', ':', 'x',
          ' ', '\x14', 'a', '.', 'p', 'y', ':', '\x12', '3', '0', ':',
          '\x13', 'y'] := by
  decide

end Pogrep
